import Mathlib

/-!
# Verification of the randoffee grouping/scoring/search core

Shallow embedding of the randoffee repository's core logic:

* `main.py` — `Grouping`, `Permutation`, the similarity engine
  (`Grouping.similarity_to`, `Permutation.similarity_to`).
* `randomise.py` — `random_groups`, the random partition generator.
* `run.py` — `weighted_similarity`, `choose_best_of`,
  `randomise_until_target`.
* `leader.py` — `count_lead_occasions`, `count_lead_fraction`,
  `adjust_leaders`.

Conventions of the embedding:

* Participant identifiers are `String` (emails in the source).
* Python `set` values are represented by deduplicated lists
  (`List.dedup`); iteration order over a Python set is arbitrary, so any
  fixed deterministic order is a faithful refinement.
* Python dicts are association lists with `dictGet` / `dictInsert`
  mirroring dict lookup and insert-or-overwrite.
* Dates (`datetime.date`) are modelled as `Nat` stamps: the core only
  compares them and embeds them in error messages.
* Python floats are modelled as `ℚ` (all arithmetic in the core is
  exact: integer counts, fixed decimal weights, and divisions).
  `math.inf` (first-timer leadership score) is modelled by `⊤` in
  `WithTop ℚ`.
* Randomness is passed explicitly: the result of `random.shuffle` is the
  `shuffled` argument (constrained to be a permutation of the input in
  theorems), the result of `random.sample` is the `sample` argument
  (constrained to be a valid draw), the candidate stream of the search
  strategies is an explicit list, and `random.choice` is a `pick`
  function constrained to choose an element of its argument.
* Fallible code returns `Except RunError _`; a Python exception
  (ValueError / IndexError / ZeroDivisionError) becomes an `error`
  value (`Option` for `random_groups`, whose only failures are the
  uncaught ValueError / IndexError).
-/

deriving instance DecidableEq for Except

/-- Errors raised by the core (Python exceptions in the source). -/
inductive RunError where
  /-- Python `ValueError("Person {p} was in more than one group in permutation
  dated {d}")` raised by `Permutation.similarity_to`. -/
  | consistency (date : Nat) (person : String)
  /-- Python `ZeroDivisionError` from `score_total / len(all_participants)`. -/
  | zeroDivision
  /-- Python `IndexError` from `most_recent_perms[0]` on an empty history. -/
  | indexError
  /-- The `error(...)` exit in `choose_best_of` when no perfect
  permutation was found: carries the date of the most recent round and
  the suggestion text. -/
  | exhaustedAttempts (date : Nat) (suggestion : String)
  /-- Python `ValueError(f"Invalid metric: {metric}")` in `adjust_leaders`. -/
  | invalidMetric (metric : String)
  deriving DecidableEq

/-- One coffee group: a leader plus the other members (`main.py`,
class `Grouping`; `others` is a Python set, here a list used up to
deduplication). -/
structure Grouping where
  leader : String
  others : List String
  deriving DecidableEq

/-- Embeds `Grouping.participants`: `{self.leader} | self.others`. -/
def Grouping.participants (g : Grouping) : List String :=
  (g.leader :: g.others).dedup

/-- Embeds `Grouping.similarity_to`: the number of common members of the two
groups, people in `excluding` not counted
(`len((self.participants() - excluding) & (other.participants() - excluding))`). -/
def Grouping.similarity_to (g other : Grouping) (excluding : List String) : Nat :=
  ((g.participants.filter (fun p => p ∉ excluding)).filter
    (fun p => p ∈ other.participants.filter (fun q => q ∉ excluding))).length

/-- One full round: a date plus an ordered list of groups (`main.py`,
class `Permutation`). -/
structure Permutation where
  date : Nat
  groups : List Grouping
  deriving DecidableEq

/-- Embeds `Permutation.participants`: union of all groups' participants. -/
def Permutation.participants (P : Permutation) : List String :=
  ((P.groups.map Grouping.participants).flatten).dedup

/-- Result of a permutation similarity computation (`main.py`, class
`PermutationSimilarityStats`). `persons_with_repeats` is a dict keyed by
participant, here an association list in loop order. -/
structure PermutationSimilarityStats where
  per_person_score : ℚ
  persons_with_repeats : List (String × Nat)
  deriving DecidableEq

/-- The body of the `for p in all_participants` loop of
`Permutation.similarity_to`, accumulating `score_total` and
`persons_with_repeats`.  For each participant: skip if absent from
either round; `ValueError` if present in more than one group of a
round; otherwise add the exclusion-adjusted group similarity (linear,
squared, or — for an unknown weighting — nothing) and record nonzero
similarities. -/
def simLoop (P Q : Permutation) (weighting : String) :
    List String → Except RunError (Nat × List (String × Nat))
  | [] => .ok (0, [])
  | p :: rest =>
    match P.groups.filter (fun g => p ∈ g.participants),
          Q.groups.filter (fun g => p ∈ g.participants) with
    | [], _ => simLoop P Q weighting rest
    | _, [] => simLoop P Q weighting rest
    | [gp], [gq] =>
      (simLoop P Q weighting rest).map (fun tr =>
        let s := gp.similarity_to gq [p]
        ((if weighting = "linear" then s
          else if weighting = "quadratic" then s * s
          else 0) + tr.1,
         if 0 < s then (p, s) :: tr.2 else tr.2))
    | _ :: _ :: _, _ => .error (.consistency P.date p)
    | [_], _ :: _ :: _ => .error (.consistency Q.date p)

/-- The local `all_participants = self.participants() | other.participants()`
of `Permutation.similarity_to`. -/
def allParticipantsOf (P Q : Permutation) : List String :=
  (P.participants ++ Q.participants).dedup

/-- Embeds `Permutation.similarity_to` (`main.py`): loop over the union of the
two rounds' participants, then divide the accumulated score by the size
of that union (unguarded in the source: `ZeroDivisionError` when both
rounds are empty). -/
def Permutation.similarity_to (P Q : Permutation) (weighting : String) :
    Except RunError PermutationSimilarityStats :=
  match simLoop P Q weighting (allParticipantsOf P Q) with
  | .error e => .error e
  | .ok (total, repeats) =>
    if (allParticipantsOf P Q).length = 0 then .error .zeroDivision
    else .ok ⟨(total : ℚ) / ((allParticipantsOf P Q).length : ℚ), repeats⟩

/-- The weights `[1.0, 0.8, 0.5, 0.2]` of `weighted_similarity`
(`run.py`). -/
def simWeights : List ℚ := [1, 4 / 5, 1 / 2, 1 / 5]

/-- The generator-sum inside `weighted_similarity`:
`sum(weight * perm.similarity_to(p).per_person_score for weight, p in
zip(weights, most_recent_perms))`. -/
def weightedSum (perm : Permutation) :
    List (ℚ × Permutation) → Except RunError ℚ
  | [] => .ok 0
  | (w, p) :: rest => do
    let st ← perm.similarity_to p "linear"
    let r ← weightedSum perm rest
    pure (w * st.per_person_score + r)

/-- Embeds `weighted_similarity` (`run.py`): the zipped weighted sum divided by
`sum(weights)` — the sum of the whole four-element weight list,
regardless of how many history entries were actually paired with a
weight. -/
def weighted_similarity (perm : Permutation) (most_recent_perms : List Permutation) :
    Except RunError ℚ := do
  let s ← weightedSum perm (simWeights.zip most_recent_perms)
  pure (s / simWeights.sum)

/-- Per-candidate trial similarity in `choose_best_of` /
`randomise_until_target`: `trial_permutation.similarity_to(most_recent_perms[0]).per_person_score`,
taken as `0` by `choose_best_of` when the history is empty. -/
def trialSimilarity (hist : List Permutation) (c : Permutation) :
    Except RunError ℚ :=
  match hist with
  | [] => .ok 0
  | h0 :: _ => do
    let st ← c.similarity_to h0 "linear"
    pure st.per_person_score

/-- The candidate-generation loop of `choose_best_of` (`run.py`):
collect the perfect candidates (trial similarity exactly 0, in
generation order) and track the strictly best candidate seen so far
(`best_similarity` starts at `inf`, modelled by the `none` state). -/
def cboLoop (hist : List Permutation) :
    List Permutation → List Permutation → Option (ℚ × Permutation) →
    Except RunError (List Permutation × Option (ℚ × Permutation))
  | [], perfect, best => .ok (perfect, best)
  | c :: rest, perfect, best => do
    let ts ← trialSimilarity hist c
    let perfect2 := if ts = 0 then perfect ++ [c] else perfect
    let best2 := match best with
      | none => some (ts, c)
      | some (bs, bp) => if ts < bs then some (ts, c) else some (bs, bp)
    cboLoop hist rest perfect2 best2

/-- Stable insertion of a keyed candidate into an ascending list:
inserts after all entries with a key `≤` its own, mirroring the
stability of Python's `list.sort`. -/
def insertAscending (x : ℚ × Permutation) :
    List (ℚ × Permutation) → List (ℚ × Permutation)
  | [] => [x]
  | y :: ys => if x.1 < y.1 then x :: y :: ys else y :: insertAscending x ys

/-- Stable ascending sort by key (Python's `list.sort(key=...)`). -/
def stableSortByKey (l : List (ℚ × Permutation)) : List (ℚ × Permutation) :=
  l.foldl (fun acc x => insertAscending x acc) []

/-- The suggestion text of the `error(...)` exit in `choose_best_of`. -/
def cboSuggestion : String :=
  "Try increasing the number of attempts with the -n flag, or suppressing this error with --allow-imperfect."

/-- Embeds `choose_best_of` (`run.py`), with the `n_attempts` random draws
passed explicitly as the candidate list `cands`.  If no candidate is
perfect: return the best-so-far when `allow_imperfect` (the source
returns `None` if there were no attempts at all), otherwise exit with
the exhausted-attempts error naming `most_recent_perms[0]`'s date.
Otherwise sort the perfect candidates stably by weighted similarity and
return the first. -/
def choose_best_of (cands : List Permutation) (allow_imperfect : Bool)
    (most_recent_perms : List Permutation) :
    Except RunError (Option Permutation) := do
  let (perfect, best) ← cboLoop most_recent_perms cands [] none
  if perfect.length = 0 then
    if allow_imperfect then
      pure (best.map (fun b => b.2))
    else
      match most_recent_perms with
      | [] => .error .indexError
      | h0 :: _ => .error (.exhaustedAttempts h0.date cboSuggestion)
  else do
    let keyed ← perfect.mapM (fun p => do
      let w ← weighted_similarity p most_recent_perms
      pure (w, p))
    match stableSortByKey keyed with
    | [] => .error .indexError
    | b :: _ => pure (some b.2)

/-- Embeds `randomise_until_target` (`run.py`), with the stream of random
draws passed explicitly as `cands` (the source loops forever; `none`
means the provided stream was exhausted without an acceptable
candidate).  Each iteration computes the similarity to
`most_recent_perms[0]` — an unguarded index that raises `IndexError`
when the history is empty — and the weighted similarity, and returns
the first candidate with weighted similarity strictly below the target
whose latest-round similarity is 0 (unless `allow_imperfect`). -/
def randomise_until_target (target_similarity : ℚ) (allow_imperfect : Bool)
    (most_recent_perms : List Permutation) :
    List Permutation → Except RunError (Option Permutation)
  | [] => .ok none
  | c :: rest =>
    match most_recent_perms with
    | [] => .error .indexError
    | h0 :: _ => do
      let stLatest ← c.similarity_to h0 "linear"
      let simAll ← weighted_similarity c most_recent_perms
      if (allow_imperfect || stLatest.per_person_score = 0) ∧
          simAll < target_similarity then
        pure (some c)
      else
        randomise_until_target target_similarity allow_imperfect
          most_recent_perms rest

/-- Fuel-driven worker for `chunkList`: each step removes the next `n`
elements.  Structural recursion on the fuel keeps the definition
kernel-reducible; callers pass the list's length as fuel, which
suffices whenever `n ≥ 1`. -/
def chunkFuel (n : Nat) : Nat → List String → List (List String)
  | _, [] => []
  | 0, _ :: _ => []
  | fuel + 1, x :: xs => (x :: xs).take n :: chunkFuel n fuel ((x :: xs).drop n)

/-- Split a list into consecutive chunks of size `n`
(`[elements[i : i + group_size] for i in range(0, len(elements), group_size)]`;
a zero `n` is a `ValueError` in Python's `range`, handled by the caller). -/
def chunkList (n : Nat) (l : List String) : List (List String) :=
  chunkFuel n l.length l

/-- Embeds `random_groups` (`randomise.py`), with the result of
`random.shuffle(elements)` passed as `shuffled` and the result of
`random.sample(range(len(groups) - 1), last_group_size)` passed as
`sample`.  `none` models the uncaught Python exceptions: `IndexError`
from `groups[-1]` on an empty input (and the `ValueError` of a zero
`range` step), and `ValueError` from `random.sample` when the last
group's size exceeds the number of other groups.  When the last group
is undersized, its members are appended one each to the sampled groups
and the last group is dropped. -/
def random_groups (shuffled : List String) (sample : List Nat)
    (group_size : Nat) : Option (List (List String)) :=
  if group_size = 0 then none
  else
    match (chunkList group_size shuffled).getLast? with
    | none => none
    | some last =>
      if last.length < group_size then
        if last.length ≤ (chunkList group_size shuffled).length - 1 then
          some (((sample.zip last).foldl
            (fun gs ie => gs.set ie.1 ((gs.getD ie.1 []) ++ [ie.2]))
            (chunkList group_size shuffled)).dropLast)
        else none
      else some (chunkList group_size shuffled)

/-- The full effect of a `random_groups(elements, group_size)` call on
the caller: the returned groups together with the contents of the
caller's `elements` list after the call.  `random.shuffle(elements)`
reorders the caller's list in place, so the post-state is the shuffle
draw itself. -/
def random_groups_call (_elements : List String) (shuffled : List String)
    (sample : List Nat) (group_size : Nat) :
    Option (List (List String)) × List String :=
  (random_groups shuffled sample group_size, shuffled)

/-- Python dict lookup: `d.get(k)` / `d[k]` on an association list. -/
def dictGet {α : Type} (d : List (String × α)) (k : String) : Option α :=
  (d.find? (fun kv => kv.1 = k)).map (fun kv => kv.2)

/-- Python dict assignment `d[k] = v`: overwrite in place, or append a
new entry. -/
def dictInsert {α : Type} (d : List (String × α)) (k : String) (v : α) :
    List (String × α) :=
  if d.any (fun kv => kv.1 = k) then
    d.map (fun kv => if kv.1 = k then (k, v) else kv)
  else d ++ [(k, v)]

/-- The backfill loop of `count_lead_occasions`: give every participant
of a group an entry of `0` if they have none yet. -/
def backfill (d : List (String × Nat)) : List String → List (String × Nat)
  | [] => d
  | p :: rest =>
    backfill (match dictGet d p with
      | some _ => d
      | none => dictInsert d p 0) rest

/-- Embeds `count_lead_occasions` (`leader.py`), with the previous
permutations (read from the `previous` directory by
`get_all_previous_permutations()` in the source) passed explicitly:
every participant ever seen is backfilled to `0`, and each group adds
`1` to its leader's count. -/
def count_lead_occasions (prev_perms : List Permutation) :
    List (String × Nat) :=
  prev_perms.foldl
    (fun d perm => perm.groups.foldl
      (fun d g =>
        let d2 := backfill d g.participants
        dictInsert d2 g.leader (((dictGet d2 g.leader).getD 0) + 1))
      d)
    []

/-- Embeds `count_lead_fraction` (`leader.py`), previous permutations passed
explicitly: rounds led divided by rounds participated in, for every
participant ever seen. -/
def count_lead_fraction (prev_perms : List Permutation) :
    List (String × ℚ) :=
  let counts := prev_perms.foldl
    (fun (lt : List (String × Nat) × List (String × Nat)) perm =>
      perm.groups.foldl
        (fun lt g =>
          let lead := dictInsert lt.1 g.leader (((dictGet lt.1 g.leader).getD 0) + 1)
          let tot := g.participants.foldl
            (fun t p => dictInsert t p (((dictGet t p).getD 0) + 1)) lt.2
          (lead, tot))
        lt)
    ([], [])
  counts.2.map (fun kv =>
    (kv.1, ((dictGet counts.1 kv.1).getD 0 : ℚ) / (kv.2 : ℚ)))

/-- Embeds `get_lead_score` inside `adjust_leaders`: the tabulated score, or
the caller-supplied first-timer score on a `KeyError`. -/
def getLeadScore (scores : List (String × WithTop ℚ))
    (score_for_first_timers : String → WithTop ℚ) (p : String) : WithTop ℚ :=
  (dictGet scores p).getD (score_for_first_timers p)

/-- Python `min(...)` over a nonempty generator, seeded with `⊤`. -/
def listMin (l : List (WithTop ℚ)) : WithTop ℚ :=
  l.foldr min ⊤

/-- The members of a group attaining the minimal leadership score
(`min_score_participants` in `adjust_leaders`). -/
def minScoreParticipants (scores : List (String × WithTop ℚ))
    (score_for_first_timers : String → WithTop ℚ) (g : Grouping) :
    List String :=
  let f := getLeadScore scores score_for_first_timers
  g.participants.filter (fun p => f p = listMin (g.participants.map f))

/-- The per-group body of `adjust_leaders`: pick a new leader uniformly
among the minimal-score members (`random.choice` modelled by `pick`)
and rebuild the group. -/
def adjustGroup (pick : List String → String)
    (scores : List (String × WithTop ℚ))
    (score_for_first_timers : String → WithTop ℚ) (g : Grouping) : Grouping :=
  let new_leader := pick (minScoreParticipants scores score_for_first_timers g)
  ⟨new_leader, g.participants.filter (fun p => p ≠ new_leader)⟩

/-- The metric dispatch at the top of `adjust_leaders`:
`lead_fraction` and `lead_occasions` scores coerced into `WithTop ℚ`
(Python floats with `inf` for first-timers), any other metric a
`ValueError`. -/
def leadScoresFor (metric : String) (prev_perms : List Permutation) :
    Except RunError (List (String × WithTop ℚ)) :=
  if metric = "lead_fraction" then
    .ok ((count_lead_fraction prev_perms).map (fun kv => (kv.1, (kv.2 : WithTop ℚ))))
  else if metric = "lead_occasions" then
    .ok ((count_lead_occasions prev_perms).map (fun kv => (kv.1, ((kv.2 : ℚ) : WithTop ℚ))))
  else
    .error (.invalidMetric metric)

/-- Embeds `adjust_leaders` (`leader.py`): compute the leadership scores for
the chosen metric, then rebuild every group with a minimal-score leader
chosen by `pick`, keeping the date. -/
def adjust_leaders (pick : List String → String)
    (prev_perms : List Permutation) (perm : Permutation) (metric : String)
    (score_for_first_timers : String → WithTop ℚ) :
    Except RunError Permutation := do
  let scores ← leadScoresFor metric prev_perms
  pure ⟨perm.date,
    perm.groups.map (adjustGroup pick scores score_for_first_timers)⟩

/-! ## Theorems -/

/-- C9: with both group lists empty the similarity computation has an
empty participant union, so the unguarded division fails
(`ZeroDivisionError`); whenever a stats value is returned at all, its
`per_person_score` is a nonnegative rational. -/
theorem similarity_to_needs_participants (P Q : Permutation) (w : String) :
    (P.groups = [] → Q.groups = [] →
      Permutation.similarity_to P Q w = .error .zeroDivision) ∧
    (∀ st, Permutation.similarity_to P Q w = .ok st →
      0 ≤ st.per_person_score) := by
  constructor
  · intro hP hQ
    simp [Permutation.similarity_to, allParticipantsOf, Permutation.participants,
      hP, hQ, simLoop]
  · intro st h
    unfold Permutation.similarity_to at h
    cases hsl : simLoop P Q w (allParticipantsOf P Q) with
    | error e => rw [hsl] at h; cases h
    | ok tr =>
      obtain ⟨total, repeats⟩ := tr
      rw [hsl] at h
      by_cases hlen : (allParticipantsOf P Q).length = 0
      · simp [hlen] at h
      · simp only [hlen, if_false] at h
        cases h
        have hpos : (0 : ℚ) < ((allParticipantsOf P Q).length : ℚ) := by
          exact_mod_cast Nat.pos_of_ne_zero hlen
        exact div_nonneg (by positivity) (le_of_lt hpos)

/-- Witness for C9 at two empty rounds. -/
theorem similarity_to_needs_participants_witness :
    Permutation.similarity_to ⟨0, []⟩ ⟨1, []⟩ "linear" = .error .zeroDivision :=
  (similarity_to_needs_participants ⟨0, []⟩ ⟨1, []⟩ "linear").1 rfl rfl

/-- With a weighting other than `linear`/`quadratic` the loop adds
nothing to the score but behaves identically otherwise. -/
lemma simLoop_unknown (P Q : Permutation) (w : String)
    (hw1 : w ≠ "linear") (hw2 : w ≠ "quadratic") :
    ∀ ps : List String,
      simLoop P Q w ps = (simLoop P Q "linear" ps).map (fun tr => (0, tr.2)) := by
  intro ps
  induction ps with
  | nil => simp [simLoop, Except.map]
  | cons p rest ih =>
    rw [simLoop, simLoop]
    cases h1 : P.groups.filter (fun g => p ∈ g.participants) with
    | nil => simpa using ih
    | cons g1 t1 =>
      cases h2 : Q.groups.filter (fun g => p ∈ g.participants) with
      | nil => simpa using ih
      | cons g2 t2 =>
        cases t1 with
        | cons g1b t1b => simp [Except.map]
        | nil =>
          cases t2 with
          | cons g2b t2b => simp [Except.map]
          | nil =>
            rw [ih]
            cases hr : simLoop P Q "linear" rest with
            | error e => simp [Except.map]
            | ok tr => simp [Except.map, hw1, hw2]

/-- C10: an unrecognised weighting string raises no error — the result
is exactly the linear-weighting result with its score replaced by 0
(every overlap contributes nothing to `score_total`), while
`persons_with_repeats` is still populated with every nonzero overlap. -/
theorem similarity_to_unknown_weighting (P Q : Permutation) (w : String)
    (hw1 : w ≠ "linear") (hw2 : w ≠ "quadratic") :
    Permutation.similarity_to P Q w =
      (Permutation.similarity_to P Q "linear").map
        (fun st => ⟨0, st.persons_with_repeats⟩) := by
  unfold Permutation.similarity_to
  rw [simLoop_unknown P Q w hw1 hw2]
  cases simLoop P Q "linear" (allParticipantsOf P Q) with
  | error e => rfl
  | ok tr =>
    obtain ⟨total, repeats⟩ := tr
    by_cases hlen : (allParticipantsOf P Q).length = 0
    · simp [hlen, Except.map]
    · simp [hlen, Except.map]

/-- Witness for C10: weighting `cubic` on a concrete pair of rounds. -/
theorem similarity_to_unknown_weighting_witness :
    Permutation.similarity_to ⟨0, [⟨"a", ["b"]⟩]⟩ ⟨1, [⟨"a", ["b"]⟩]⟩ "cubic" =
      (Permutation.similarity_to ⟨0, [⟨"a", ["b"]⟩]⟩ ⟨1, [⟨"a", ["b"]⟩]⟩ "linear").map
        (fun st => ⟨0, st.persons_with_repeats⟩) :=
  similarity_to_unknown_weighting _ _ "cubic" (by decide) (by decide)

/-- Counterexample to C2: with a single-entry history whose similarity
score is 1, the claim predicts `1.0 * 1 / 1.0 = 1` (divisor = sum of
the weights actually used), but the code divides by the full weight sum
2.5 and returns `2/5`. -/
theorem weighted_similarity_used_divisor_cx :
    weighted_similarity ⟨0, [⟨"a", ["b"]⟩]⟩ [⟨1, [⟨"a", ["b"]⟩]⟩] = .ok (2 / 5) ∧
      ((2 : ℚ) / 5) ≠ 1 := by
  constructor
  · with_unfolding_all decide
  · with_unfolding_all decide

/-- The generator-sum evaluates to the zipped weight/score products,
with entries beyond the history (or beyond the weight list) dropped. -/
lemma weightedSum_formula (perm : Permutation) :
    ∀ (ws : List ℚ) (hist : List Permutation) (scores : List ℚ),
      List.Forall₂ (fun p s => ∃ st,
          Permutation.similarity_to perm p "linear" = .ok st ∧
          st.per_person_score = s)
        (hist.take ws.length) scores →
      weightedSum perm (ws.zip hist) =
        .ok ((List.zipWith (fun w s => w * s) ws scores).sum) := by
  intro ws
  induction ws with
  | nil =>
    intro hist scores h
    cases h
    simp [weightedSum]
  | cons w ws ih =>
    intro hist scores h
    cases hist with
    | nil =>
      cases h
      simp [weightedSum]
    | cons p hist =>
      rw [List.length_cons, List.take_succ_cons] at h
      cases h with
      | cons hrel hrest =>
        obtain ⟨st, hst, hscore⟩ := hrel
        rename_i s scores'
        rw [List.zip_cons_cons, weightedSum, hst, ih hist scores' hrest]
        subst hscore
        rfl

/-- C2 (amended): the weighted historical similarity is the sum of
`weight_i * per_person_score_i` over the entries actually present
(weights 1.0, 0.8, 0.5, 0.2, at most four history entries used), but
always divided by the full weight sum 2.5, regardless of how many
history entries there are — missing entries drop from the numerator
only, not from the divisor. -/
theorem weighted_similarity_full_divisor (perm : Permutation)
    (hist : List Permutation) (scores : List ℚ)
    (h : List.Forall₂ (fun p s => ∃ st,
        Permutation.similarity_to perm p "linear" = .ok st ∧
        st.per_person_score = s)
      (hist.take 4) scores) :
    weighted_similarity perm hist =
      .ok ((List.zipWith (fun w s => w * s) simWeights scores).sum / (5 / 2)) := by
  have h4 : hist.take simWeights.length = hist.take 4 := by
    simp [simWeights]
  have hsum := weightedSum_formula perm simWeights hist scores (by rw [h4]; exact h)
  unfold weighted_similarity
  rw [hsum]
  have : simWeights.sum = 5 / 2 := by
    simp [simWeights]
    norm_num
  rw [this]
  rfl

/-- Witness for C2's amended theorem: one history entry with score 1
gives `(1 * 1) / (5/2) = 2/5`. -/
theorem weighted_similarity_full_divisor_witness :
    weighted_similarity ⟨0, [⟨"a", ["b"]⟩]⟩ [⟨1, [⟨"a", ["b"]⟩]⟩] =
      .ok ((List.zipWith (fun w s => w * s) simWeights [1]).sum / (5 / 2)) := by
  refine weighted_similarity_full_divisor _ _ [1] ?_
  refine List.Forall₂.cons ⟨⟨1, [("a", 1), ("b", 1)]⟩, ?_, ?_⟩ List.Forall₂.nil
  · with_unfolding_all decide
  · with_unfolding_all decide

lemma nat_le_mul_self (s : ℕ) : s ≤ s * s := by
  cases s with
  | zero => simp
  | succ n => exact Nat.le_mul_of_pos_left _ (Nat.succ_pos n)

lemma nat_mul_self_eq_iff (s : ℕ) : s * s = s ↔ s = 0 ∨ s = 1 := by
  constructor
  · intro h
    rcases Nat.lt_or_ge s 2 with h2 | h2
    · omega
    · exfalso; nlinarith
  · rintro (rfl | rfl) <;> simp

/-- The linear and quadratic runs of the similarity loop fail together
with the same error, or return the same repeat map with `Σ s ≤ Σ s²`,
equal exactly when every recorded repeat count is 1. -/
lemma simLoop_quad_linear (P Q : Permutation) :
    ∀ ps : List String,
      (∃ e, simLoop P Q "linear" ps = .error e ∧
        simLoop P Q "quadratic" ps = .error e) ∨
      (∃ tl tq rep, simLoop P Q "linear" ps = .ok (tl, rep) ∧
        simLoop P Q "quadratic" ps = .ok (tq, rep) ∧
        tl ≤ tq ∧ (tl = tq ↔ ∀ pr ∈ rep, pr.2 = 1)) := by
  intro ps
  induction ps with
  | nil => exact Or.inr ⟨0, 0, [], rfl, rfl, le_refl 0, by simp⟩
  | cons p rest ih =>
    rw [simLoop, simLoop]
    cases h1 : P.groups.filter (fun g => p ∈ g.participants) with
    | nil => simpa using ih
    | cons g1 t1 =>
      cases h2 : Q.groups.filter (fun g => p ∈ g.participants) with
      | nil => simpa using ih
      | cons g2 t2 =>
        cases t1 with
        | cons g1b t1b =>
          exact Or.inl ⟨.consistency P.date p, rfl, rfl⟩
        | nil =>
          cases t2 with
          | cons g2b t2b =>
            exact Or.inl ⟨.consistency Q.date p, rfl, rfl⟩
          | nil =>
            rcases ih with ⟨e, hl, hq⟩ | ⟨tl, tq, rep, hl, hq, hle, hiff⟩
            · refine Or.inl ⟨e, ?_, ?_⟩
              · simp [hl, Except.map]
              · simp [hq, Except.map]
            · refine Or.inr ⟨g1.similarity_to g2 [p] + tl,
                g1.similarity_to g2 [p] * g1.similarity_to g2 [p] + tq,
                if 0 < g1.similarity_to g2 [p]
                  then (p, g1.similarity_to g2 [p]) :: rep else rep,
                ?_, ?_, ?_, ?_⟩
              · rw [hl]; simp [Except.map]
              · rw [hq]; simp [Except.map]
              · exact Nat.add_le_add (nat_le_mul_self _) hle
              · have hss := nat_le_mul_self (g1.similarity_to g2 [p])
                by_cases hs : 0 < g1.similarity_to g2 [p]
                · simp only [if_pos hs, List.mem_cons]
                  constructor
                  · intro heq
                    have hcomp : g1.similarity_to g2 [p] =
                        g1.similarity_to g2 [p] * g1.similarity_to g2 [p] ∧ tl = tq := by
                      omega
                    have hone : g1.similarity_to g2 [p] = 1 := by
                      rcases (nat_mul_self_eq_iff _).mp hcomp.1.symm with h0 | h1
                      · omega
                      · exact h1
                    intro pr hpr
                    rcases hpr with hpr | hpr
                    · rw [hpr]; exact hone
                    · exact (hiff.mp hcomp.2) pr hpr
                  · intro hall
                    have hone : g1.similarity_to g2 [p] = 1 :=
                      hall (p, g1.similarity_to g2 [p]) (Or.inl rfl)
                    have htltq : tl = tq := hiff.mpr (fun pr hpr => hall pr (Or.inr hpr))
                    rw [hone, htltq]
                · simp only [if_neg hs]
                  have hzero : g1.similarity_to g2 [p] = 0 := by omega
                  rw [hzero]
                  simpa using hiff

/-- C7: for a fixed pair of rounds that compares successfully and has at
least one repeated pairing, the quadratic per-person score dominates the
linear one, with equality exactly when every recorded overlap count is
1. -/
theorem similarity_quadratic_dominates (P Q : Permutation)
    (stL stQ : PermutationSimilarityStats)
    (hL : Permutation.similarity_to P Q "linear" = .ok stL)
    (hQ : Permutation.similarity_to P Q "quadratic" = .ok stQ)
    (hrep : stL.persons_with_repeats ≠ []) :
    stL.per_person_score ≤ stQ.per_person_score ∧
      (stQ.per_person_score = stL.per_person_score ↔
        ∀ pr ∈ stQ.persons_with_repeats, pr.2 = 1) := by
  rcases simLoop_quad_linear P Q (allParticipantsOf P Q) with
    ⟨e, hl, hq⟩ | ⟨tl, tq, rep, hl, hq, hle, hiff⟩
  · unfold Permutation.similarity_to at hL
    rw [hl] at hL
    cases hL
  · unfold Permutation.similarity_to at hL hQ
    rw [hl] at hL
    rw [hq] at hQ
    by_cases hlen : (allParticipantsOf P Q).length = 0
    · simp [hlen] at hL
    · simp only [hlen, if_false] at hL hQ
      cases hL
      cases hQ
      have hN : (0 : ℚ) < ((allParticipantsOf P Q).length : ℚ) := by
        exact_mod_cast Nat.pos_of_ne_zero hlen
      constructor
      · exact (div_le_div_iff_of_pos_right hN).mpr (by exact_mod_cast hle)
      · have hinj : ((tq : ℚ) / ((allParticipantsOf P Q).length : ℚ) =
            (tl : ℚ) / ((allParticipantsOf P Q).length : ℚ)) ↔ (tq : ℚ) = (tl : ℚ) := by
          constructor
          · intro h
            field_simp [ne_of_gt hN] at h
            exact_mod_cast h
          · intro h
            rw [h]
        simp only [hinj]
        rw [show ((tq : ℚ) = (tl : ℚ)) ↔ (tq = tl) from Nat.cast_inj]
        rw [eq_comm]
        exact hiff

/-- Witness for C7: two identical rounds of two groups of four; linear
score 3, quadratic score 9, all overlap counts 3. -/
theorem similarity_quadratic_dominates_witness :
    ((3 : ℚ) ≤ (9 : ℚ)) ∧
      (((9 : ℚ) = (3 : ℚ)) ↔ ∀ pr ∈ ([("a", 3), ("b", 3), ("c", 3), ("d", 3),
          ("e", 3), ("f", 3), ("g", 3), ("h", 3)] : List (String × Nat)),
        pr.2 = 1) := by
  have h := similarity_quadratic_dominates
    ⟨3, [⟨"a", ["b", "c", "d"]⟩, ⟨"e", ["f", "g", "h"]⟩]⟩
    ⟨4, [⟨"a", ["b", "c", "d"]⟩, ⟨"e", ["f", "g", "h"]⟩]⟩
    ⟨3, [("a", 3), ("b", 3), ("c", 3), ("d", 3),
         ("e", 3), ("f", 3), ("g", 3), ("h", 3)]⟩
    ⟨9, [("a", 3), ("b", 3), ("c", 3), ("d", 3),
         ("e", 3), ("f", 3), ("g", 3), ("h", 3)]⟩
    (by with_unfolding_all decide) (by with_unfolding_all decide) (by decide)
  simpa using h

/-- The number of groups of a round containing a given participant
(`len([g for g in self.groups if p in g.participants()])`). -/
def countGroups (X : Permutation) (p : String) : Nat :=
  (X.groups.filter (fun g => p ∈ g.participants)).length

/-- Whatever consistency error the loop reports names a participant of
the list who took part in both rounds and is multiply matched in the
round whose date is reported. -/
lemma simLoop_consistency_spec (P Q : Permutation) (w : String) :
    ∀ (ps : List String) (d : Nat) (pers : String),
      simLoop P Q w ps = .error (.consistency d pers) →
      (1 ≤ countGroups P pers ∧ 1 ≤ countGroups Q pers) ∧
      ((d = P.date ∧ 1 < countGroups P pers) ∨
        (d = Q.date ∧ 1 < countGroups Q pers)) := by
  intro ps
  induction ps with
  | nil => intro d pers h; cases h
  | cons p rest ih =>
    intro d pers h
    rw [simLoop] at h
    cases h1 : P.groups.filter (fun g => p ∈ g.participants) with
    | nil =>
      rw [h1] at h
      exact ih d pers (by simpa using h)
    | cons g1 t1 =>
      cases h2 : Q.groups.filter (fun g => p ∈ g.participants) with
      | nil =>
        rw [h1, h2] at h
        exact ih d pers (by simpa using h)
      | cons g2 t2 =>
        rw [h1, h2] at h
        cases t1 with
        | cons g1b t1b =>
          simp only at h
          cases h
          refine ⟨⟨?_, ?_⟩, Or.inl ⟨rfl, ?_⟩⟩
          · unfold countGroups; rw [h1]; simp
          · unfold countGroups; rw [h2]; simp
          · unfold countGroups; rw [h1]; simp
        | nil =>
          cases t2 with
          | cons g2b t2b =>
            simp only at h
            cases h
            refine ⟨⟨?_, ?_⟩, Or.inr ⟨rfl, ?_⟩⟩
            · unfold countGroups; rw [h1]; simp
            · unfold countGroups; rw [h2]; simp
            · unfold countGroups; rw [h2]; simp
          | nil =>
            simp only at h
            cases hr : simLoop P Q w rest with
            | error e =>
              rw [hr] at h
              cases h
              exact ih d pers hr
            | ok tr =>
              rw [hr] at h
              cases h

/-- A participant of the list who took part in both rounds but is
matched by more than one group in one of them makes the loop fail with
a consistency error. -/
lemma simLoop_consistency_of_broken (P Q : Permutation) (w : String) :
    ∀ (ps : List String) (p : String), p ∈ ps →
      1 ≤ countGroups P p → 1 ≤ countGroups Q p →
      (1 < countGroups P p ∨ 1 < countGroups Q p) →
      ∃ d pers, simLoop P Q w ps = .error (.consistency d pers) := by
  intro ps
  induction ps with
  | nil => intro p hp; cases hp
  | cons q rest ih =>
    intro p hp hcp hcq hgt
    rw [simLoop]
    rcases List.mem_cons.mp hp with rfl | hp
    · cases h1 : P.groups.filter (fun g => p ∈ g.participants) with
      | nil =>
        exfalso
        unfold countGroups at hcp
        rw [h1] at hcp
        exact Nat.not_succ_le_zero 0 hcp
      | cons g1 t1 =>
        cases h2 : Q.groups.filter (fun g => p ∈ g.participants) with
        | nil =>
          exfalso
          unfold countGroups at hcq
          rw [h2] at hcq
          exact Nat.not_succ_le_zero 0 hcq
        | cons g2 t2 =>
          cases t1 with
          | cons g1b t1b => exact ⟨P.date, p, rfl⟩
          | nil =>
            cases t2 with
            | cons g2b t2b => exact ⟨Q.date, p, rfl⟩
            | nil =>
              exfalso
              unfold countGroups at hgt
              rw [h1, h2] at hgt
              simp at hgt
    · have hex := ih p hp hcp hcq hgt
      obtain ⟨d, pers, hrest⟩ := hex
      cases h1 : P.groups.filter (fun g => q ∈ g.participants) with
      | nil => exact ⟨d, pers, by simpa using hrest⟩
      | cons g1 t1 =>
        cases h2 : Q.groups.filter (fun g => q ∈ g.participants) with
        | nil => exact ⟨d, pers, by simpa using hrest⟩
        | cons g2 t2 =>
          cases t1 with
          | cons g1b t1b => exact ⟨P.date, q, rfl⟩
          | nil =>
            cases t2 with
            | cons g2b t2b => exact ⟨Q.date, q, rfl⟩
            | nil => exact ⟨d, pers, by simp [hrest, Except.map]⟩

/-- Membership in a round implies membership in the loop's union
list. -/
lemma mem_allParticipants_left (P Q : Permutation) (p : String)
    (h : 1 ≤ countGroups P p) : p ∈ allParticipantsOf P Q := by
  unfold countGroups at h
  have hne : P.groups.filter (fun g => p ∈ g.participants) ≠ [] := by
    intro hnil
    rw [hnil] at h
    exact Nat.not_succ_le_zero 0 h
  obtain ⟨g, hg⟩ := List.exists_mem_of_ne_nil _ hne
  have hmem := List.mem_filter.mp hg
  have hgP : g ∈ P.groups := hmem.1
  have hpg : p ∈ g.participants := by simpa using hmem.2
  have : p ∈ P.participants := by
    unfold Permutation.participants
    rw [List.mem_dedup, List.mem_flatten]
    exact ⟨g.participants, List.mem_map_of_mem Grouping.participants hgP, hpg⟩
  unfold allParticipantsOf
  rw [List.mem_dedup]
  exact List.mem_append_left _ this

/-- C5: `similarity_to` fails with a consistency `ValueError` exactly
when some participant present in both rounds is matched by more than
one group in one of them (participants absent from either round never
trigger it), and the reported error names the date of an offending
round together with a participant of both rounds who is multiply
matched in that round. -/
theorem similarity_to_consistency (P Q : Permutation) (w : String) :
    ((∃ d pers, Permutation.similarity_to P Q w = .error (.consistency d pers)) ↔
      ∃ p, 1 ≤ countGroups P p ∧ 1 ≤ countGroups Q p ∧
        (1 < countGroups P p ∨ 1 < countGroups Q p)) ∧
    (∀ d pers, Permutation.similarity_to P Q w = .error (.consistency d pers) →
      (1 ≤ countGroups P pers ∧ 1 ≤ countGroups Q pers) ∧
      ((d = P.date ∧ 1 < countGroups P pers) ∨
        (d = Q.date ∧ 1 < countGroups Q pers))) := by
  have htrans : ∀ d pers,
      Permutation.similarity_to P Q w = .error (.consistency d pers) ↔
      simLoop P Q w (allParticipantsOf P Q) = .error (.consistency d pers) := by
    intro d pers
    unfold Permutation.similarity_to
    cases hsl : simLoop P Q w (allParticipantsOf P Q) with
    | error e => simp
    | ok tr =>
      obtain ⟨total, repeats⟩ := tr
      by_cases hlen : (allParticipantsOf P Q).length = 0 <;> simp [hlen]
  constructor
  · constructor
    · rintro ⟨d, pers, h⟩
      have hsl := (htrans d pers).mp h
      have hspec := simLoop_consistency_spec P Q w (allParticipantsOf P Q) d pers hsl
      refine ⟨pers, hspec.1.1, hspec.1.2, ?_⟩
      rcases hspec.2 with ⟨_, hgt⟩ | ⟨_, hgt⟩
      · exact Or.inl hgt
      · exact Or.inr hgt
    · rintro ⟨p, hcp, hcq, hgt⟩
      have hp : p ∈ allParticipantsOf P Q := mem_allParticipants_left P Q p hcp
      obtain ⟨d, pers, hsl⟩ :=
        simLoop_consistency_of_broken P Q w (allParticipantsOf P Q) p hp hcp hcq hgt
      exact ⟨d, pers, (htrans d pers).mpr hsl⟩
  · intro d pers h
    exact simLoop_consistency_spec P Q w (allParticipantsOf P Q) d pers
      ((htrans d pers).mp h)

/-- Witness for C5: a round in which `a` appears in two groups, compared
against a round containing `a`, fails with the consistency error naming
the first round's date and `a`; the iff direction is exercised through
the theorem. -/
theorem similarity_to_consistency_witness :
    ∃ d pers, Permutation.similarity_to
      ⟨6, [⟨"a", ["b"]⟩, ⟨"a", ["c"]⟩]⟩ ⟨7, [⟨"a", ["b"]⟩]⟩ "linear" =
        .error (.consistency d pers) :=
  (similarity_to_consistency ⟨6, [⟨"a", ["b"]⟩, ⟨"a", ["c"]⟩]⟩
      ⟨7, [⟨"a", ["b"]⟩]⟩ "linear").1.mpr
    ⟨"a", by decide, by decide, Or.inl (by decide)⟩

/-- C3: on an empty history `choose_best_of` guards the access to
`most_recent_perms[0]` and returns a candidate (every candidate is
trivially perfect), but `randomise_until_target` indexes
`most_recent_perms[0]` unguarded in its first iteration and fails with
an `IndexError` instead of returning a candidate. -/
theorem empty_history_divergence :
    choose_best_of [⟨0, [⟨"a", ["b"]⟩]⟩] false [] = .ok (some ⟨0, [⟨"a", ["b"]⟩]⟩) ∧
    choose_best_of [⟨0, [⟨"a", ["b"]⟩]⟩] true [] = .ok (some ⟨0, [⟨"a", ["b"]⟩]⟩) ∧
    randomise_until_target 1 false [] [⟨0, [⟨"a", ["b"]⟩]⟩] = .error .indexError ∧
    randomise_until_target 1 true [] [⟨0, [⟨"a", ["b"]⟩]⟩] = .error .indexError := by
  refine ⟨?_, ?_, ?_, ?_⟩ <;> with_unfolding_all decide

/-- Pure model of the best-so-far tracking of `choose_best_of`'s
generation loop: fold the update `best_similarity`/`best_perm` step
(strict improvement only) over the candidates' scores `f`. -/
def bestFold (f : Permutation → ℚ) :
    Option (ℚ × Permutation) → List Permutation → Option (ℚ × Permutation)
  | best, [] => best
  | best, c :: rest =>
    bestFold f (match best with
      | none => some (f c, c)
      | some (bs, bp) => if f c < bs then some (f c, c) else some (bs, bp)) rest

/-- When no candidate is perfect (all scores nonzero) and all
similarity computations succeed with scores `f`, the generation loop
keeps the perfect list unchanged and tracks the best via `bestFold`. -/
lemma cboLoop_eq_bestFold (h0 : Permutation) (hr : List Permutation)
    (f : Permutation → ℚ) :
    ∀ (cands perfect : List Permutation) (best : Option (ℚ × Permutation)),
      (∀ c ∈ cands, ∃ st, Permutation.similarity_to c h0 "linear" = .ok st ∧
        st.per_person_score = f c) →
      (∀ c ∈ cands, f c ≠ 0) →
      cboLoop (h0 :: hr) cands perfect best = .ok (perfect, bestFold f best cands) := by
  intro cands
  induction cands with
  | nil => intro perfect best _ _; rfl
  | cons c rest ih =>
    intro perfect best hsim hnz
    obtain ⟨st, hst, hsc⟩ := hsim c (List.mem_cons_self c rest)
    have hts : trialSimilarity (h0 :: hr) c = .ok (f c) := by
      show (do
        let st ← Permutation.similarity_to c h0 "linear"
        pure st.per_person_score : Except RunError ℚ) = .ok (f c)
      rw [hst]
      show Except.ok st.per_person_score = .ok (f c)
      rw [hsc]
    rw [cboLoop, hts]
    have hcnz : ¬(f c = 0) := hnz c (List.mem_cons_self c rest)
    show cboLoop (h0 :: hr) rest (if f c = 0 then perfect ++ [c] else perfect) _ = _
    rw [if_neg hcnz]
    exact ih perfect _ (fun x hx => hsim x (List.mem_cons_of_mem c hx))
      (fun x hx => hnz x (List.mem_cons_of_mem c hx))

/-- The best-so-far tracker is `none` only if it started `none` and saw
no candidates. -/
lemma bestFold_eq_none (f : Permutation → ℚ) :
    ∀ (cands : List Permutation) (best : Option (ℚ × Permutation)),
      bestFold f best cands = none → best = none ∧ cands = [] := by
  intro cands
  induction cands with
  | nil => intro best h; exact ⟨h, rfl⟩
  | cons c rest ih =>
    intro best h
    cases best with
    | none =>
      obtain ⟨hnone, -⟩ := ih (some (f c, c)) h
      cases hnone
    | some b =>
      obtain ⟨bs, bp⟩ := b
      have h' : bestFold f (if f c < bs then some (f c, c) else some (bs, bp)) rest = none := h
      by_cases hlt : f c < bs
      · rw [if_pos hlt] at h'
        obtain ⟨hnone, -⟩ := ih (some (f c, c)) h'
        cases hnone
      · rw [if_neg hlt] at h'
        obtain ⟨hnone, -⟩ := ih (some (bs, bp)) h'
        cases hnone

/-- The best-so-far tracker returns either its initial value or a seen
candidate with its score, is a lower bound of all seen scores, and
never increases above the initial key. -/
lemma bestFold_spec (f : Permutation → ℚ) :
    ∀ (cands : List Permutation) (best : Option (ℚ × Permutation))
      (bs : ℚ) (bp : Permutation),
      bestFold f best cands = some (bs, bp) →
      ((best = some (bs, bp)) ∨ (bp ∈ cands ∧ bs = f bp)) ∧
      (∀ c ∈ cands, bs ≤ f c) ∧
      (∀ bs0 bp0, best = some (bs0, bp0) → bs ≤ bs0) := by
  intro cands
  induction cands with
  | nil =>
    intro best bs bp h
    have hb : best = some (bs, bp) := h
    refine ⟨Or.inl hb, by simp, ?_⟩
    intro bs0 bp0 h0
    rw [hb] at h0
    cases h0
    exact le_refl bs
  | cons c rest ih =>
    intro best bs bp h
    cases best with
    | none =>
      have h' : bestFold f (some (f c, c)) rest = some (bs, bp) := h
      obtain ⟨hmem, hle, hmono⟩ := ih (some (f c, c)) bs bp h'
      have hbsc : bs ≤ f c := hmono (f c) c rfl
      refine ⟨?_, ?_, by intro bs0 bp0 h0; cases h0⟩
      · rcases hmem with heq | hmemr
        · cases heq
          exact Or.inr ⟨List.mem_cons_self c rest, rfl⟩
        · exact Or.inr ⟨List.mem_cons_of_mem c hmemr.1, hmemr.2⟩
      · intro x hx
        rcases List.mem_cons.mp hx with rfl | hx
        · exact hbsc
        · exact hle x hx
    | some b =>
      obtain ⟨bs0, bp0⟩ := b
      have h' : bestFold f (if f c < bs0 then some (f c, c) else some (bs0, bp0)) rest =
          some (bs, bp) := h
      by_cases hlt : f c < bs0
      · rw [if_pos hlt] at h'
        obtain ⟨hmem, hle, hmono⟩ := ih (some (f c, c)) bs bp h'
        have hbsc : bs ≤ f c := hmono (f c) c rfl
        refine ⟨?_, ?_, ?_⟩
        · rcases hmem with heq | hmemr
          · cases heq
            exact Or.inr ⟨List.mem_cons_self c rest, rfl⟩
          · exact Or.inr ⟨List.mem_cons_of_mem c hmemr.1, hmemr.2⟩
        · intro x hx
          rcases List.mem_cons.mp hx with rfl | hx
          · exact hbsc
          · exact hle x hx
        · intro bs1 bp1 h1
          cases h1
          exact le_trans hbsc (le_of_lt hlt)
      · rw [if_neg hlt] at h'
        obtain ⟨hmem, hle, hmono⟩ := ih (some (bs0, bp0)) bs bp h'
        have hbs0 : bs ≤ bs0 := hmono bs0 bp0 rfl
        have hbsc : bs ≤ f c := le_trans hbs0 (le_of_not_lt hlt)
        refine ⟨?_, ?_, ?_⟩
        · rcases hmem with heq | hmemr
          · exact Or.inl heq
          · exact Or.inr ⟨List.mem_cons_of_mem c hmemr.1, hmemr.2⟩
        · intro x hx
          rcases List.mem_cons.mp hx with rfl | hx
          · exact hbsc
          · exact hle x hx
        · intro bs1 bp1 h1
          cases h1
          exact hbs0

/-- C4: when every generated candidate scores nonzero against the most
recent round (no perfect candidate), `choose_best_of` without
`allow_imperfect` exits with the exhausted-attempts error naming
`history[0]`'s date and the suggestion to raise the attempt budget or
allow imperfect results; with `allow_imperfect` it returns the tracked
best-so-far candidate — a generated candidate of minimal trial
similarity. -/
theorem choose_best_of_exhausted
    (cands : List Permutation) (h0 : Permutation) (hr : List Permutation)
    (f : Permutation → ℚ)
    (hsim : ∀ c ∈ cands, ∃ st, Permutation.similarity_to c h0 "linear" = .ok st ∧
      st.per_person_score = f c)
    (hnz : ∀ c ∈ cands, f c ≠ 0) :
    choose_best_of cands false (h0 :: hr) =
      .error (.exhaustedAttempts h0.date cboSuggestion) ∧
    (cands ≠ [] → ∃ bp ∈ cands, (∀ c ∈ cands, f bp ≤ f c) ∧
      choose_best_of cands true (h0 :: hr) = .ok (some bp)) := by
  have hloop := cboLoop_eq_bestFold h0 hr f cands [] none hsim hnz
  constructor
  · unfold choose_best_of
    rw [hloop]
    rfl
  · intro hne
    cases hbf : bestFold f none cands with
    | none =>
      obtain ⟨-, hnil⟩ := bestFold_eq_none f cands none hbf
      exact absurd hnil hne
    | some b =>
      obtain ⟨bs, bp⟩ := b
      obtain ⟨hmem, hle, -⟩ := bestFold_spec f cands none bs bp hbf
      rcases hmem with heq | ⟨hbp, hbs⟩
      · simp at heq
      · refine ⟨bp, hbp, ?_, ?_⟩
        · intro c hc
          rw [← hbs]
          exact hle c hc
        · unfold choose_best_of
          rw [hloop, hbf]
          rfl

/-- Witness for C4: one candidate identical to the previous round
(trial similarity 1, never perfect): without `allow_imperfect` the
exhausted error names the previous round's date 5; with it the
candidate itself is returned. -/
theorem choose_best_of_exhausted_witness :
    choose_best_of [⟨9, [⟨"a", ["b"]⟩]⟩] false [⟨5, [⟨"a", ["b"]⟩]⟩] =
      .error (.exhaustedAttempts 5 cboSuggestion) ∧
    (([⟨9, [⟨"a", ["b"]⟩]⟩] : List Permutation) ≠ [] →
      ∃ bp ∈ ([⟨9, [⟨"a", ["b"]⟩]⟩] : List Permutation),
        (∀ c ∈ ([⟨9, [⟨"a", ["b"]⟩]⟩] : List Permutation), (1 : ℚ) ≤ 1) ∧
        choose_best_of [⟨9, [⟨"a", ["b"]⟩]⟩] true [⟨5, [⟨"a", ["b"]⟩]⟩] =
          .ok (some bp)) := by
  exact choose_best_of_exhausted [⟨9, [⟨"a", ["b"]⟩]⟩] ⟨5, [⟨"a", ["b"]⟩]⟩ []
    (fun _ => 1)
    (by
      intro c hc
      rw [List.mem_singleton] at hc
      subst hc
      exact ⟨⟨1, [("a", 1), ("b", 1)]⟩, by with_unfolding_all decide,
        by with_unfolding_all decide⟩)
    (fun c hc => one_ne_zero)

/-- Counterexample to C8: `["b", "a"]` is a legitimate outcome of
`random.shuffle(["a", "b"])` (it is a permutation of the input), and
after the call the caller's list holds that shuffled order, not the
original order. -/
theorem random_groups_mutates_cx :
    (List.Perm ["b", "a"] ["a", "b"]) ∧
    (random_groups_call ["a", "b"] ["b", "a"] [] 1).2 ≠ ["a", "b"] := by
  constructor
  · decide
  · decide

/-- C8 (amended): `random_groups` shuffles the caller's list in place,
so after the call the caller's list is exactly the shuffle draw — the
same elements as a multiset, but not in general in the original
order. -/
theorem random_groups_call_post (elements shuffled : List String)
    (sample : List Nat) (group_size : Nat)
    (hperm : shuffled.Perm elements) :
    (random_groups_call elements shuffled sample group_size).2 = shuffled ∧
    ((random_groups_call elements shuffled sample group_size).2).Perm elements :=
  ⟨rfl, hperm⟩

/-- Witness for C8's amended theorem at the counterexample's input. -/
theorem random_groups_call_post_witness :
    (random_groups_call ["a", "b"] ["b", "a"] [] 1).2 = ["b", "a"] ∧
    ((random_groups_call ["a", "b"] ["b", "a"] [] 1).2).Perm ["a", "b"] :=
  random_groups_call_post ["a", "b"] ["b", "a"] [] 1 (by decide)

lemma listMin_le (l : List (WithTop ℚ)) (x : WithTop ℚ) (hx : x ∈ l) :
    listMin l ≤ x := by
  induction l with
  | nil => cases hx
  | cons y ys ih =>
    rcases List.mem_cons.mp hx with rfl | hx
    · exact min_le_left _ _
    · exact le_trans (min_le_right _ _) (ih hx)

lemma listMin_mem (l : List (WithTop ℚ)) (hne : l ≠ []) : listMin l ∈ l := by
  induction l with
  | nil => exact absurd rfl hne
  | cons y ys ih =>
    cases ys with
    | nil =>
      have : listMin [y] = y := min_eq_left le_top
      rw [this]
      exact List.mem_singleton_self y
    | cons z zs =>
      rcases min_choice y (listMin (z :: zs)) with h | h
      · rw [show listMin (y :: z :: zs) = min y (listMin (z :: zs)) from rfl, h]
        exact List.mem_cons_self _ _
      · rw [show listMin (y :: z :: zs) = min y (listMin (z :: zs)) from rfl, h]
        exact List.mem_cons_of_mem y (ih (by simp))

/-- C6: after `adjust_leaders` (for any valid random pick and either
metric), every group's new leader has a leadership score that is less
than or equal to the score of every participant of that group; when a
group's minimal-score set is a single participant, that participant is
chosen no matter how the random choice behaves. -/
theorem adjust_leaders_minimality
    (pick : List String → String) (prev_perms : List Permutation)
    (perm : Permutation) (metric : String)
    (sfft : String → WithTop ℚ)
    (scores : List (String × WithTop ℚ)) (res : Permutation)
    (hpick : ∀ l, l ≠ [] → pick l ∈ l)
    (hscores : leadScoresFor metric prev_perms = .ok scores)
    (hres : adjust_leaders pick prev_perms perm metric sfft = .ok res) :
    (∀ g' ∈ res.groups, ∀ p ∈ g'.participants,
      getLeadScore scores sfft g'.leader ≤ getLeadScore scores sfft p) ∧
    (∀ g ∈ perm.groups, ∀ u, minScoreParticipants scores sfft g = [u] →
      (adjustGroup pick scores sfft g).leader = u) := by
  have hres' : res = ⟨perm.date, perm.groups.map (adjustGroup pick scores sfft)⟩ := by
    unfold adjust_leaders at hres
    rw [hscores] at hres
    cases hres
    rfl
  constructor
  · intro g' hg' p hp
    rw [hres'] at hg'
    simp only [List.mem_map] at hg'
    obtain ⟨g, hg, rfl⟩ := hg'
    have hleadmem : g.leader ∈ g.participants := by
      unfold Grouping.participants
      rw [List.mem_dedup]
      exact List.mem_cons_self _ _
    have hpsne : g.participants ≠ [] := by
      intro h0
      rw [h0] at hleadmem
      cases hleadmem
    have hmapne : g.participants.map (getLeadScore scores sfft) ≠ [] := by
      simpa using hpsne
    have hminmem := listMin_mem _ hmapne
    obtain ⟨q, hq, hfq⟩ := List.mem_map.mp hminmem
    have hminPs_ne : minScoreParticipants scores sfft g ≠ [] := by
      unfold minScoreParticipants
      intro h0
      have hqmem : q ∈ g.participants.filter (fun p =>
          getLeadScore scores sfft p =
            listMin (g.participants.map (getLeadScore scores sfft))) :=
        List.mem_filter.mpr ⟨hq, by simp [hfq]⟩
      rw [h0] at hqmem
      cases hqmem
    have hnl := hpick _ hminPs_ne
    have hnlmem := List.mem_filter.mp hnl
    have hfleader : getLeadScore scores sfft
        (pick (minScoreParticipants scores sfft g)) =
        listMin (g.participants.map (getLeadScore scores sfft)) := by
      simpa using hnlmem.2
    have hp' : p = pick (minScoreParticipants scores sfft g) ∨
        p ∈ g.participants := by
      unfold adjustGroup Grouping.participants at hp
      rw [List.mem_dedup] at hp
      rcases List.mem_cons.mp hp with h | h
      · exact Or.inl h
      · exact Or.inr (List.mem_of_mem_filter h)
    show getLeadScore scores sfft (pick (minScoreParticipants scores sfft g)) ≤ _
    rcases hp' with rfl | hp'
    · exact le_refl _
    · rw [hfleader]
      exact listMin_le _ _ (List.mem_map_of_mem _ hp')
  · intro g hg u hu
    unfold adjustGroup
    rw [hu]
    have := hpick [u] (by simp)
    simpa using this

/-- Witness for C6, the spec's example scenario: history scores
`{a: 2, b: 0, c: 1}` under `lead_occasions`, group `{a, b, c}`: the
adjusted round must make `b` (the sole minimum) the leader. -/
theorem adjust_leaders_minimality_witness :
    (∀ g' ∈ (⟨5, [⟨"b", ["a", "c"]⟩]⟩ : Permutation).groups,
      ∀ p ∈ g'.participants,
        getLeadScore [("a", ((2 : ℚ) : WithTop ℚ)), ("b", ((0 : ℚ) : WithTop ℚ)),
            ("c", ((1 : ℚ) : WithTop ℚ))] (fun _ => ⊤) g'.leader ≤
          getLeadScore [("a", ((2 : ℚ) : WithTop ℚ)), ("b", ((0 : ℚ) : WithTop ℚ)),
            ("c", ((1 : ℚ) : WithTop ℚ))] (fun _ => ⊤) p) ∧
    (∀ g ∈ (⟨5, [⟨"a", ["b", "c"]⟩]⟩ : Permutation).groups, ∀ u,
      minScoreParticipants [("a", ((2 : ℚ) : WithTop ℚ)), ("b", ((0 : ℚ) : WithTop ℚ)),
          ("c", ((1 : ℚ) : WithTop ℚ))] (fun _ => ⊤) g = [u] →
      (adjustGroup (fun l => l.headD "")
        [("a", ((2 : ℚ) : WithTop ℚ)), ("b", ((0 : ℚ) : WithTop ℚ)),
          ("c", ((1 : ℚ) : WithTop ℚ))] (fun _ => ⊤) g).leader = u) := by
  exact adjust_leaders_minimality (fun l => l.headD "")
    [⟨0, [⟨"a", ["b", "c"]⟩]⟩, ⟨1, [⟨"c", ["a", "b"]⟩]⟩, ⟨2, [⟨"a", ["b", "c"]⟩]⟩]
    ⟨5, [⟨"a", ["b", "c"]⟩]⟩ "lead_occasions" (fun _ => ⊤)
    [("a", ((2 : ℚ) : WithTop ℚ)), ("b", ((0 : ℚ) : WithTop ℚ)),
      ("c", ((1 : ℚ) : WithTop ℚ))]
    ⟨5, [⟨"b", ["a", "c"]⟩]⟩
    (by
      intro l hl
      cases l with
      | nil => exact absurd rfl hl
      | cons x xs => simp [List.headD])
    (by with_unfolding_all decide)
    (by with_unfolding_all decide)

lemma chunkFuel_flatten (n : Nat) (hn : n ≠ 0) :
    ∀ (fuel : Nat) (l : List String), l.length ≤ fuel →
      (chunkFuel n fuel l).flatten = l := by
  intro fuel
  induction fuel with
  | zero =>
    intro l hl
    have : l = [] := List.length_eq_zero.mp (Nat.le_zero.mp hl)
    subst this
    rfl
  | succ k ih =>
    intro l hl
    cases l with
    | nil => rfl
    | cons x xs =>
      rw [chunkFuel]
      rw [List.flatten_cons]
      rw [ih ((x :: xs).drop n) (by
        rw [List.length_drop]
        have hn1 : 1 ≤ n := Nat.one_le_iff_ne_zero.mpr hn
        have := List.length_cons x xs
        omega)]
      exact List.take_append_drop n (x :: xs)

lemma chunkList_flatten (n : Nat) (hn : n ≠ 0) (l : List String) :
    (chunkList n l).flatten = l :=
  chunkFuel_flatten n hn l.length l (le_refl _)

lemma chunkList_ne_nil (n : Nat) (l : List String) (hl : l ≠ []) :
    chunkList n l ≠ [] := by
  cases l with
  | nil => exact absurd rfl hl
  | cons x xs =>
    unfold chunkList
    rw [List.length_cons, chunkFuel]
    exact List.cons_ne_nil _ _

/-- Appending one element inside a list of groups adds it to the
flattened contents, up to permutation. -/
lemma flatten_set_append :
    ∀ (gs : List (List String)) (i : Nat) (e : String), i < gs.length →
      ((gs.set i ((gs.getD i []) ++ [e])).flatten).Perm (gs.flatten ++ [e]) := by
  intro gs
  induction gs with
  | nil => intro i e hi; cases hi
  | cons g t ih =>
    intro i e hi
    cases i with
    | zero =>
      show ((g ++ [e]) :: t).flatten.Perm ((g :: t).flatten ++ [e])
      rw [List.flatten_cons, List.flatten_cons, List.append_assoc,
        List.append_assoc]
      exact List.Perm.append_left g List.perm_append_comm
    | succ j =>
      show (g :: t.set j ((t.getD j []) ++ [e])).flatten.Perm ((g :: t).flatten ++ [e])
      rw [List.flatten_cons, List.flatten_cons, List.append_assoc]
      exact List.Perm.append_left g (ih j e (Nat.lt_of_succ_lt_succ hi))

/-- The remainder-distribution fold of `random_groups`: appending each
sampled pair keeps the number of groups and the (untouched) last group,
and adds exactly the distributed elements to the flattened contents. -/
lemma distribute_spec :
    ∀ (pairs : List (Nat × String)) (gs : List (List String)),
      (∀ q ∈ pairs, q.1 + 1 < gs.length) →
      (pairs.foldl (fun gs ie => gs.set ie.1 ((gs.getD ie.1 []) ++ [ie.2])) gs).length
          = gs.length ∧
      (pairs.foldl (fun gs ie => gs.set ie.1 ((gs.getD ie.1 []) ++ [ie.2])) gs).getLast?
          = gs.getLast? ∧
      ((pairs.foldl (fun gs ie => gs.set ie.1 ((gs.getD ie.1 []) ++ [ie.2])) gs).flatten).Perm
          (pairs.map Prod.snd ++ gs.flatten) := by
  intro pairs
  induction pairs with
  | nil =>
    intro gs _
    exact ⟨rfl, rfl, by simp⟩
  | cons q rest ih =>
    intro gs hb
    obtain ⟨i, e⟩ := q
    have hiq : i + 1 < gs.length := hb (i, e) (List.mem_cons_self _ _)
    have hilt : i < gs.length := Nat.lt_of_succ_lt hiq
    have hlen2 : (gs.set i ((gs.getD i []) ++ [e])).length = gs.length :=
      List.length_set gs i _
    have hb' : ∀ q ∈ rest, q.1 + 1 < (gs.set i ((gs.getD i []) ++ [e])).length := by
      intro q hq
      rw [hlen2]
      exact hb q (List.mem_cons_of_mem _ hq)
    obtain ⟨ihlen, ihlast, ihperm⟩ := ih (gs.set i ((gs.getD i []) ++ [e])) hb'
    refine ⟨?_, ?_, ?_⟩
    · show (rest.foldl _ (gs.set i ((gs.getD i []) ++ [e]))).length = gs.length
      rw [ihlen, hlen2]
    · show (rest.foldl _ (gs.set i ((gs.getD i []) ++ [e]))).getLast? = gs.getLast?
      rw [ihlast]
      rw [List.getLast?_eq_getElem?, List.getLast?_eq_getElem?, hlen2]
      exact List.getElem?_set_ne (by omega)
    · show ((rest.foldl _ (gs.set i ((gs.getD i []) ++ [e]))).flatten).Perm
        (((i, e) :: rest).map Prod.snd ++ gs.flatten)
      refine ihperm.trans ?_
      have hstep : ((gs.set i ((gs.getD i []) ++ [e])).flatten).Perm (gs.flatten ++ [e]) :=
        flatten_set_append gs i e hilt
      refine (List.Perm.append_left _ hstep).trans ?_
      rw [List.map_cons]
      show (rest.map Prod.snd ++ (gs.flatten ++ [e])).Perm
        (e :: (rest.map Prod.snd ++ gs.flatten))
      rw [← List.append_assoc]
      exact List.perm_append_comm

/-- A duplicate-free list of naturals all below `k` has at most `k`
elements. -/
lemma nodup_length_le (s : List Nat) (k : Nat) (hnd : s.Nodup)
    (hb : ∀ i ∈ s, i < k) : s.length ≤ k := by
  have hsub : s.toFinset ⊆ Finset.range k := by
    intro i hi
    rw [List.mem_toFinset] at hi
    rw [Finset.mem_range]
    exact hb i hi
  have := Finset.card_le_card hsub
  rw [Finset.card_range, List.toFinset_card_of_nodup hnd] at this
  exact this

lemma countP_zero_of_count_zero (out : List (List String)) (p : String)
    (h : out.flatten.count p = 0) :
    out.countP (fun g => decide (p ∈ g)) = 0 := by
  rw [List.countP_eq_zero]
  intro g hg
  simp only [decide_eq_true_eq]
  intro hpg
  have : p ∈ out.flatten := List.mem_flatten.mpr ⟨g, hg, hpg⟩
  rw [List.count_eq_zero] at h
  exact h this

/-- An element occurring exactly once in the flattened groups lies in
exactly one group. -/
lemma countP_groups_of_count_one :
    ∀ (out : List (List String)) (p : String), out.flatten.count p = 1 →
      out.countP (fun g => decide (p ∈ g)) = 1 := by
  intro out
  induction out with
  | nil => intro p h; cases h
  | cons g t ih =>
    intro p h
    rw [List.flatten_cons, List.count_append] at h
    by_cases hpg : p ∈ g
    · have hg1 : g.count p ≠ 0 := fun h0 => (List.count_eq_zero.mp h0) hpg
      have hgc : g.count p = 1 ∧ t.flatten.count p = 0 := by omega
      rw [List.countP_cons, countP_zero_of_count_zero t p hgc.2]
      simp [hpg]
    · have hgc : g.count p = 0 := List.count_eq_zero.mpr hpg
      rw [List.countP_cons, ih p (by omega)]
      simp [hpg]

/-- Contents-permutation plus duplicate-freedom give the exactly-one-
group property. -/
lemma partition_count (out : List (List String)) (elements : List String)
    (hp : out.flatten.Perm elements) (hnd : elements.Nodup)
    (p : String) (hpm : p ∈ elements) :
    out.countP (fun g => decide (p ∈ g)) = 1 := by
  have hnd' : out.flatten.Nodup := hp.nodup_iff.mpr hnd
  have hmem' : p ∈ out.flatten := hp.mem_iff.mpr hpm
  exact countP_groups_of_count_one out p (List.count_eq_one_of_mem hnd' hmem')

/-- C1 (amended): whenever the shuffle draw is a permutation of a
nonempty input and the group size is at least 1, and — only in case the
last chunk is undersized (a nonzero remainder), the one case in which
the source calls `random.sample` at all — the remainder draw is a valid
`random.sample` outcome (duplicate-free indices into the full groups,
one per member of the undersized last chunk; such a draw exists exactly
when the remainder does not exceed the number of full groups),
`random_groups` succeeds and partitions the input: the groups' contents
are a permutation of the input, and a duplicate-free input puts every
participant in exactly one group.  When the group size divides the
input length the sample argument is unused and unconstrained. -/
theorem random_groups_partition
    (elements shuffled : List String) (sample : List Nat) (group_size : Nat)
    (hperm : shuffled.Perm elements)
    (hgs : group_size ≠ 0)
    (hne : elements ≠ [])
    (hsample : (((chunkList group_size shuffled).getLast?).getD []).length < group_size →
      sample.Nodup ∧
      sample.length = (((chunkList group_size shuffled).getLast?).getD []).length ∧
      ∀ i ∈ sample, i + 1 < (chunkList group_size shuffled).length) :
    ∃ out, random_groups shuffled sample group_size = some out ∧
      out.flatten.Perm elements ∧
      (elements.Nodup → ∀ p ∈ elements,
        out.countP (fun g => decide (p ∈ g)) = 1) := by
  have hshufne : shuffled ≠ [] := by
    intro h
    subst h
    have := hperm.length_eq
    simp only [List.length_nil] at this
    exact hne (List.length_eq_zero.mp this.symm)
  have hgne : chunkList group_size shuffled ≠ [] :=
    chunkList_ne_nil group_size shuffled hshufne
  have hflat : (chunkList group_size shuffled).flatten = shuffled :=
    chunkList_flatten group_size hgs shuffled
  have hlast : (chunkList group_size shuffled).getLast? =
      some ((chunkList group_size shuffled).getLast hgne) :=
    List.getLast?_eq_getLast _ hgne
  have hglen : 1 ≤ (chunkList group_size shuffled).length := by
    have : (chunkList group_size shuffled).length ≠ 0 := by
      intro h0
      exact hgne (List.length_eq_zero.mp h0)
    omega
  by_cases hlt : ((chunkList group_size shuffled).getLast hgne).length < group_size
  · -- remainder branch: the last chunk is undersized and redistributed
    have hguard : (((chunkList group_size shuffled).getLast?).getD []).length <
        group_size := by
      rw [hlast]
      exact hlt
    obtain ⟨hnodup, hslen, hbound⟩ := hsample hguard
    have hslen' : sample.length =
        ((chunkList group_size shuffled).getLast hgne).length := by
      rw [hslen, hlast]
      rfl
    have hle : ((chunkList group_size shuffled).getLast hgne).length ≤
        (chunkList group_size shuffled).length - 1 := by
      rw [← hslen']
      refine nodup_length_le sample _ hnodup ?_
      intro i hi
      have := hbound i hi
      omega
    have heq : random_groups shuffled sample group_size =
        some (((sample.zip ((chunkList group_size shuffled).getLast hgne)).foldl
          (fun gs ie => gs.set ie.1 ((gs.getD ie.1 []) ++ [ie.2]))
          (chunkList group_size shuffled)).dropLast) := by
      unfold random_groups
      rw [if_neg hgs, hlast]
      show (if ((chunkList group_size shuffled).getLast hgne).length < group_size
          then _ else _) = _
      rw [if_pos hlt, if_pos hle]
    have hpb : ∀ q ∈ sample.zip ((chunkList group_size shuffled).getLast hgne),
        q.1 + 1 < (chunkList group_size shuffled).length := by
      intro q hq
      obtain ⟨i, e⟩ := q
      exact hbound i (List.of_mem_zip hq).1
    obtain ⟨hFlen, hFlast, hFperm⟩ := distribute_spec
      (sample.zip ((chunkList group_size shuffled).getLast hgne))
      (chunkList group_size shuffled) hpb
    have hFne : ((sample.zip ((chunkList group_size shuffled).getLast hgne)).foldl
        (fun gs ie => gs.set ie.1 ((gs.getD ie.1 []) ++ [ie.2]))
        (chunkList group_size shuffled)) ≠ [] := by
      intro h0
      rw [h0] at hFlen
      exact hgne (List.length_eq_zero.mp hFlen.symm)
    have hFlast' : ((chunkList group_size shuffled).getLast hgne) ∈
        ((sample.zip ((chunkList group_size shuffled).getLast hgne)).foldl
          (fun gs ie => gs.set ie.1 ((gs.getD ie.1 []) ++ [ie.2]))
          (chunkList group_size shuffled)).getLast? := by
      rw [Option.mem_def, hFlast, hlast]
    have hdecomp := List.dropLast_append_getLast? _ hFlast'
    have hmapsnd : (sample.zip ((chunkList group_size shuffled).getLast hgne)).map
        Prod.snd = (chunkList group_size shuffled).getLast hgne :=
      List.map_snd_zip _ _ (le_of_eq hslen'.symm)
    have h1 : ((sample.zip ((chunkList group_size shuffled).getLast hgne)).foldl
        (fun gs ie => gs.set ie.1 ((gs.getD ie.1 []) ++ [ie.2]))
        (chunkList group_size shuffled)).flatten =
        ((sample.zip ((chunkList group_size shuffled).getLast hgne)).foldl
          (fun gs ie => gs.set ie.1 ((gs.getD ie.1 []) ++ [ie.2]))
          (chunkList group_size shuffled)).dropLast.flatten ++
          ((chunkList group_size shuffled).getLast hgne) := by
      conv_lhs => rw [← hdecomp]
      rw [List.flatten_append]
      simp
    have h2 : (((sample.zip ((chunkList group_size shuffled).getLast hgne)).foldl
        (fun gs ie => gs.set ie.1 ((gs.getD ie.1 []) ++ [ie.2]))
        (chunkList group_size shuffled)).dropLast.flatten ++
          ((chunkList group_size shuffled).getLast hgne)).Perm
        (shuffled ++ ((chunkList group_size shuffled).getLast hgne)) := by
      rw [← h1]
      have h3 := hFperm
      rw [hmapsnd, hflat] at h3
      exact h3.trans List.perm_append_comm
    have hcancel : (((sample.zip ((chunkList group_size shuffled).getLast hgne)).foldl
        (fun gs ie => gs.set ie.1 ((gs.getD ie.1 []) ++ [ie.2]))
        (chunkList group_size shuffled)).dropLast.flatten).Perm shuffled := by
      rw [← Multiset.coe_eq_coe]
      have hms := Multiset.coe_eq_coe.mpr h2
      rw [← Multiset.coe_add, ← Multiset.coe_add] at hms
      exact add_right_cancel hms
    refine ⟨_, heq, hcancel.trans hperm, ?_⟩
    intro hnd p hp
    exact partition_count _ elements (hcancel.trans hperm) hnd p hp
  · -- exact-fit branch: the last chunk already has `group_size` members
    have heq : random_groups shuffled sample group_size =
        some (chunkList group_size shuffled) := by
      unfold random_groups
      rw [if_neg hgs, hlast]
      show (if ((chunkList group_size shuffled).getLast hgne).length < group_size
          then _ else _) = _
      rw [if_neg hlt]
    have hpermflat : ((chunkList group_size shuffled).flatten).Perm elements := by
      rw [hflat]
      exact hperm
    refine ⟨_, heq, hpermflat, ?_⟩
    intro hnd p hp
    exact partition_count _ elements hpermflat hnd p hp

/-- Counterexample to C1 as stated: for the one-element participant
list with `group_size = 2` the generator returns no partition at all —
the single undersized chunk has nobody to absorb it
(`random.sample(range(0), 1)` raises `ValueError`). -/
theorem random_groups_partition_cx :
    random_groups ["a"] [] 2 = none := by
  decide

/-- Witness for C1's amended theorem, once per branch: five
participants in groups of two (the leftover fifth participant joins
group 0 via the sample draw `[0]`), and the spec's exact-fit scenario
of eight participants in groups of four, where no sample is drawn. -/
theorem random_groups_partition_witness :
    (∃ out, random_groups ["a", "b", "c", "d", "e"] [0] 2 = some out ∧
      out.flatten.Perm ["a", "b", "c", "d", "e"] ∧
      ((["a", "b", "c", "d", "e"] : List String).Nodup →
        ∀ p ∈ (["a", "b", "c", "d", "e"] : List String),
          out.countP (fun g => decide (p ∈ g)) = 1)) ∧
    (∃ out, random_groups ["a", "b", "c", "d", "e", "f", "g", "h"] [] 4 = some out ∧
      out.flatten.Perm ["a", "b", "c", "d", "e", "f", "g", "h"] ∧
      ((["a", "b", "c", "d", "e", "f", "g", "h"] : List String).Nodup →
        ∀ p ∈ (["a", "b", "c", "d", "e", "f", "g", "h"] : List String),
          out.countP (fun g => decide (p ∈ g)) = 1)) :=
  ⟨random_groups_partition ["a", "b", "c", "d", "e"] ["a", "b", "c", "d", "e"]
    [0] 2 (by decide) (by decide) (by decide) (by decide),
   random_groups_partition ["a", "b", "c", "d", "e", "f", "g", "h"]
    ["a", "b", "c", "d", "e", "f", "g", "h"] [] 4
    (by decide) (by decide) (by decide) (by decide)⟩
